import Mathlib

/-!
Verification of the TrendXL trend aggregation and ranking pipeline.

The definitions below are a shallow embedding of the Python backend:

* `backend/services/ensemble_service.py` — `_calculate_engagement_rate`,
  `extract_username_from_url`;
* `backend/services/gpt_service.py` — `filter_and_rank_trends`,
  `_fallback_profile_analysis`;
* `backend/routers/trends.py` — the aggregation/deduplication step of
  `refresh_trends`;
* `backend/services/sqlite_service.py` — `save_trends`.

Machine floats of the Python code are embedded as `Rat`; Python dicts are
embedded as structures, with optional keys as `Option`; a raised exception is
an `Except.error` / the `none` branch of an outcome parameter.
-/

namespace TrendXL

/-- Statistics sub-record of a TikTok post, with the count fields read by
`_calculate_engagement_rate` (`ensemble_service.py`). Missing keys default to
zero in the source (`stats.get(..., 0)`), so plain `Nat` fields suffice. -/
structure Statistics where
  play_count : Nat
  digg_count : Nat
  comment_count : Nat
  share_count : Nat
deriving DecidableEq

/-- Embedding of `EnsembleService._calculate_engagement_rate`
(`ensemble_service.py`, lines 510-522): zero when the view count is zero,
otherwise `(digg + comment + share) / views * 100`.  The redundant
`if views > 0` of the source's final line is kept. -/
def calculate_engagement_rate (stats : Statistics) : Rat :=
  let views := stats.play_count
  if views = 0 then 0
  else
    let engagements : Rat :=
      (stats.digg_count : Rat) + (stats.comment_count : Rat) + (stats.share_count : Rat)
    if views > 0 then engagements / (views : Rat) * 100 else 0

/-- Author sub-record of a trend item (the fields the embedded pipeline reads). -/
structure Author where
  unique_id : String
  nickname : String
  follower_count : Nat
deriving DecidableEq

/-- A candidate trend item as it flows through the pipeline: the dict produced
by the Ensemble search services, possibly enriched in later stages.  The five
LLM enrichment fields and the sentiment fields are optional keys of the Python
dict, hence `Option` here. -/
structure Trend where
  aweme_id : String
  desc : String
  author : Author
  statistics : Statistics
  engagement_rate : Rat
  sentiment : Option String
  audience : Option String
  relevance_score : Option Rat
  relevance_reason : Option String
  trend_category : Option String
  audience_match : Option Bool
  trend_potential : Option String
deriving DecidableEq

/-- One entry of the JSON array returned by the trend-filter LLM call
(`filter_results` in `gpt_service.py`). -/
structure FilterEntry where
  aweme_id : String
  relevance_score : Rat
  relevance_reason : String
  category : String
  audience_match : Bool
  trend_potential : String
deriving DecidableEq

/-- The `matching_trend.update(...)` step of `filter_and_rank_trends`
(`gpt_service.py`, lines 204-210): merge the five enrichment fields of an LLM
entry onto the candidate record. -/
def mergeEnrichment (t : Trend) (f : FilterEntry) : Trend :=
  { t with
    relevance_score := some f.relevance_score
    relevance_reason := some f.relevance_reason
    trend_category := some f.category
    audience_match := some f.audience_match
    trend_potential := some f.trend_potential }

/-- The reconciliation loop of `filter_and_rank_trends` (`gpt_service.py`,
lines 195-211): for each LLM entry, find the first candidate in the full
`trends` list with the same `aweme_id`; if found and the entry's
`relevance_score` is at least 70, merge the enrichment fields and append the
result to `filtered_trends`. -/
def reconcile (trends : List Trend) : List FilterEntry → List Trend
  | [] => []
  | f :: fs =>
    match trends.find? (fun t => t.aweme_id == f.aweme_id) with
    | some t =>
      if 70 ≤ f.relevance_score then mergeEnrichment t f :: reconcile trends fs
      else reconcile trends fs
    | none => reconcile trends fs

/-- Comparison used by the final sort of `filter_and_rank_trends`
(`gpt_service.py`, lines 214-217): Python's stable `list.sort` with
`key=lambda x: (x["relevance_score"], x["engagement_rate"])` and
`reverse=True`, i.e. the lexicographic key of `x` is at least that of `y`.
Every accepted record carries a merged `relevance_score`; reading the key of
the Python dict is embedded as `Option.getD` with default 0. -/
def rankLE (x y : Trend) : Bool :=
  decide (y.relevance_score.getD 0 < x.relevance_score.getD 0) ||
  (decide (y.relevance_score.getD 0 = x.relevance_score.getD 0) &&
   decide (y.engagement_rate ≤ x.engagement_rate))

/-- The accepted set after the in-place stable sort of `filter_and_rank_trends`
(`gpt_service.py`, lines 213-217): Python's `list.sort` is a stable merge
sort, embedded as `List.mergeSort`. -/
def rankedAccepted (trends : List Trend) (entries : List FilterEntry) : List Trend :=
  (reconcile trends entries).mergeSort rankLE

/-- Embedding of `GPTService.filter_and_rank_trends` (`gpt_service.py`,
lines 149-224).  The LLM call and JSON parse are embedded as the
`llmResponse` parameter: `some entries` is a successfully parsed response
array, `none` is a raised exception in the call or parse, handled by the
`except` branch at lines 221-224, which returns `trends[:max_results]`. -/
def filter_and_rank_trends (trends : List Trend) (llmResponse : Option (List FilterEntry))
    (max_results : Nat) : List Trend :=
  match llmResponse with
  | some filter_results =>
    (rankedAccepted trends filter_results).take max_results
  | none => trends.take max_results

/-- The deduplication loop of `refresh_trends` (`routers/trends.py`,
lines 92-98), carrying the `seen_ids` set. -/
def dedupLoop (seen : List String) : List Trend → List Trend
  | [] => []
  | t :: ts =>
    if t.aweme_id ∈ seen then dedupLoop seen ts
    else t :: dedupLoop (t.aweme_id :: seen) ts

/-- The aggregation step of `refresh_trends` (`routers/trends.py`,
lines 71-98): concatenate the hashtag batch and the keyword batch, then
deduplicate by `aweme_id` keeping the first occurrence. -/
def aggregate_unique_trends (hashtag_trends keyword_trends : List Trend) : List Trend :=
  dedupLoop [] (hashtag_trends ++ keyword_trends)

/-- Profile record as read by `_fallback_profile_analysis` (`gpt_service.py`):
only the `bio` and `region` keys are consulted, both possibly absent
(`profile_data.get(key, default)`). -/
structure ProfileData where
  bio : Option String
  region : Option String
deriving DecidableEq

/-- Result type of profile analysis (`models/schemas.py`, `ProfileAnalysis`). -/
structure ProfileAnalysis where
  niche : String
  interests : List String
  keywords : List String
  hashtags : List String
  target_audience : String
  content_style : String
  region_focus : String
deriving DecidableEq

/-- The ordered niche keyword table of `_fallback_profile_analysis`
(`gpt_service.py`, lines 306-313); Python dicts iterate in insertion order. -/
def nicheKeywords : List (String × List String) :=
  [("beauty", ["beauty", "makeup", "skincare", "cosmetics"]),
   ("fitness", ["fitness", "workout", "gym", "health"]),
   ("comedy", ["funny", "comedy", "humor", "jokes"]),
   ("food", ["food", "cooking", "recipe", "chef"]),
   ("tech", ["tech", "technology", "gadgets", "ai"]),
   ("lifestyle", ["lifestyle", "daily", "life", "vlog"])]

/-- `leadsChars p s` holds when `p` is an initial run of `s` (character lists). -/
def leadsChars : List Char → List Char → Bool
  | [], _ => true
  | _ :: _, [] => false
  | c :: p, d :: s => c = d && leadsChars p s

/-- `occursIn p s`: Python's substring test `p in s` on character lists. -/
def occursIn (p : List Char) : List Char → Bool
  | [] => p.isEmpty
  | d :: s => leadsChars p (d :: s) || occursIn p s

/-- The niche-detection loop of `_fallback_profile_analysis` (`gpt_service.py`,
lines 315-319): the first niche one of whose keywords occurs as a substring of
the lowercased bio, defaulting to `"lifestyle"`. -/
def detectNiche (bio : String) : String :=
  match nicheKeywords.find? (fun nk => nk.2.any (fun kw => occursIn kw.data bio.data)) with
  | some nk => nk.1
  | none => "lifestyle"

/-- Embedding of `GPTService._fallback_profile_analysis` (`gpt_service.py`,
lines 301-329). -/
def fallback_profile_analysis (profile_data : ProfileData) : ProfileAnalysis :=
  let bio := (profile_data.bio.getD "").toLower
  let detected_niche := detectNiche bio
  { niche := detected_niche
    interests := [detected_niche, "trending", "viral"]
    keywords := [detected_niche, "trending", "popular"]
    hashtags := [detected_niche, "fyp", "viral"]
    target_audience := "General audience"
    content_style := "Mixed content"
    region_focus := profile_data.region.getD "Global" }

/-- Python `str.split(sep)` for a one-character separator, on character
lists.  Always returns a non-empty list of chunks. -/
def splitOnChar (c : Char) : List Char → List (List Char)
  | [] => [[]]
  | x :: xs =>
    match splitOnChar c xs with
    | [] => [[]]
    | h :: t => if x = c then [] :: h :: t else (x :: h) :: t

/-- Python `s.split(c)[0]`. -/
def beforeFirstSplit (c : Char) (s : List Char) : List Char :=
  (splitOnChar c s).headD []

/-- Python `s.split(c)[-1]`. -/
def afterLastSplit (c : Char) (s : List Char) : List Char :=
  (splitOnChar c s).getLastD []

/-- Python `s.strip(c)` for a one-character strip set. -/
def stripChar (c : Char) (s : List Char) : List Char :=
  ((s.dropWhile (· = c)).reverse.dropWhile (· = c)).reverse

/-- A character allowed in a URL scheme by `urllib.parse.urlparse`. -/
def isSchemeChar (c : Char) : Bool :=
  c.isAlphanum || c = '+' || c = '-' || c = '.'

/-- The `.path` component of `urllib.parse.urlparse(url)`: drop a well-formed
`scheme:` head, then a `//netloc` part running to the next `/`, `?` or `#`;
the path is what remains up to the query or fragment. -/
def urlparsePath (s : List Char) : List Char :=
  let pre := beforeFirstSplit ':' s
  let rest :=
    if s.contains ':' && !pre.isEmpty && (pre.headD ' ').isAlpha && pre.all isSchemeChar
    then s.drop (pre.length + 1) else s
  let path :=
    if rest.take 2 = ['/', '/'] then
      let afterNetloc := (rest.drop 2).dropWhile (fun c => c ≠ '/' && c ≠ '?' && c ≠ '#')
      if afterNetloc.headD ' ' = '/' then afterNetloc else []
    else rest
  path.takeWhile (fun c => c ≠ '?' && c ≠ '#')

/-- Embedding of `EnsembleService.extract_username_from_url`
(`ensemble_service.py`, lines 33-55).  When the URL contains an `@`, the
handle is `url.split("@")[-1].split("/")[0].split("?")[0]`, lowercased.
Otherwise the source walks the slash-separated parts of the parsed URL path
looking for a part that starts with `@`; failing that it raises `ValueError`,
re-raised by the outer handler as `ValueError("Invalid TikTok URL format: ...")`,
embedded as `Except.error`. -/
def extract_username_from_url (url : String) : Except String String :=
  let s := url.data
  if s.contains '@' then
    let username := beforeFirstSplit '?' (beforeFirstSplit '/' (afterLastSplit '@' s))
    .ok (String.mk (username.map Char.toLower))
  else
    let path_parts := splitOnChar '/' (stripChar '/' (urlparsePath s))
    match path_parts.find? (fun p => p.headD ' ' = '@') with
    | some p => .ok (String.mk (p.tail.map Char.toLower))
    | none => .error ("Invalid TikTok URL format: " ++ url)

/-- The row record built for each trend by `save_trends`
(`sqlite_service.py`, lines 419-457), restricted to the columns derived from
the item fields modelled in `Trend`. -/
structure TrendRecord where
  Username : String
  Aweme_ID : String
  Description : String
  Author_Username : String
  Author_Nickname : String
  Author_Followers : Nat
  Views : Nat
  Likes : Nat
  Comments : Nat
  Shares : Nat
  Engagement_Rate : Rat
  Relevance_Score : Rat
  Relevance_Reason : String
  Trend_Category : String
  Audience_Match : Bool
  Trend_Potential : String
  TikTok_URL : String
  Sentiment : String
  Audience : String
deriving DecidableEq

/-- Construction of `trend_record` inside `save_trends` (`sqlite_service.py`,
lines 419-457). -/
def mkTrendRecord (username : String) (trend : Trend) : TrendRecord :=
  { Username := username
    Aweme_ID := trend.aweme_id
    Description := trend.desc.take 1000
    Author_Username := trend.author.unique_id
    Author_Nickname := trend.author.nickname
    Author_Followers := trend.author.follower_count
    Views := trend.statistics.play_count
    Likes := trend.statistics.digg_count
    Comments := trend.statistics.comment_count
    Shares := trend.statistics.share_count
    Engagement_Rate := trend.engagement_rate
    Relevance_Score := trend.relevance_score.getD 0
    Relevance_Reason := trend.relevance_reason.getD ""
    Trend_Category := trend.trend_category.getD ""
    Audience_Match := trend.audience_match.getD false
    Trend_Potential := trend.trend_potential.getD ""
    TikTok_URL :=
      "https://www.tiktok.com/@" ++ trend.author.unique_id ++ "/video/" ++ trend.aweme_id
    Sentiment := trend.sentiment.getD "Neutral"
    Audience := trend.audience.getD "General" }

/-- The `Trends` SQLite table: rows carry the autoincrement `id` primary key,
`nextId` is the next autoincrement value. -/
structure TrendsTable where
  rows : List (Nat × TrendRecord)
  nextId : Nat
deriving DecidableEq

/-- The body of the per-trend loop of `save_trends` (`sqlite_service.py`,
lines 459-471): `SELECT id FROM Trends WHERE Aweme_ID = ?` fetches the first
matching row; on a miss `_create_table_row` inserts a fresh row, on a hit
`_update_table_row` rewrites the row whose `id` was fetched. -/
def saveTrendStep (username : String) (db : TrendsTable) (trend : Trend) : TrendsTable :=
  let record := mkTrendRecord username trend
  match db.rows.find? (fun r => r.2.Aweme_ID == trend.aweme_id) with
  | none => { rows := db.rows ++ [(db.nextId, record)], nextId := db.nextId + 1 }
  | some existing =>
    { rows := db.rows.map (fun r => if r.1 = existing.1 then (r.1, record) else r)
      nextId := db.nextId }

/-- Embedding of `SQLiteService.save_trends` (`sqlite_service.py`,
lines 410-481): upsert each trend into the `Trends` table, keyed by
`Aweme_ID`. -/
def save_trends (db : TrendsTable) (trends : List Trend) (username : String) : TrendsTable :=
  trends.foldl (saveTrendStep username) db

/-- Number of stored rows whose `Aweme_ID` column equals `awemeId`. -/
def rowCount (db : TrendsTable) (awemeId : String) : Nat :=
  db.rows.countP (fun r => r.2.Aweme_ID == awemeId)

/-- Autoincrement invariant of the `Trends` table: row ids are pairwise
distinct and below the next autoincrement value. -/
def WellFormedTable (db : TrendsTable) : Prop :=
  (db.rows.map Prod.fst).Nodup ∧ ∀ r ∈ db.rows, r.1 < db.nextId

/-! ### Helper lemmas -/

theorem dedupLoop_sublist (seen : List String) (l : List Trend) :
    (dedupLoop seen l).Sublist l := by
  induction l generalizing seen with
  | nil => simp [dedupLoop]
  | cons t ts ih =>
    simp only [dedupLoop]
    split
    · exact (ih seen).cons t
    · exact (ih (t.aweme_id :: seen)).cons₂ t

theorem countP_dedupLoop (awemeId : String) (l : List Trend) (seen : List String) :
    (dedupLoop seen l).countP (fun t => t.aweme_id == awemeId) =
      if awemeId ∈ seen then 0
      else if l.any (fun t => t.aweme_id == awemeId) then 1 else 0 := by
  induction l generalizing seen with
  | nil => simp [dedupLoop]
  | cons t ts ih =>
    by_cases hseen : t.aweme_id ∈ seen
    · rw [dedupLoop, if_pos hseen, ih seen]
      by_cases hid : awemeId ∈ seen
      · simp [hid]
      · have : ¬ (t.aweme_id == awemeId) = true := by
          intro hb
          exact hid (beq_iff_eq.mp hb ▸ hseen)
        simp [hid, List.any_cons, this]
    · rw [dedupLoop, if_neg hseen]
      by_cases heq : t.aweme_id = awemeId
      · subst heq
        rw [List.countP_cons]
        rw [ih (t.aweme_id :: seen)]
        by_cases hid : t.aweme_id ∈ seen
        · exact absurd hid hseen
        · simp [hid]
      · have hbeq : ¬ (t.aweme_id == awemeId) = true := by
          simpa using heq
        rw [List.countP_cons]
        rw [ih (t.aweme_id :: seen)]
        by_cases hid : awemeId ∈ seen
        · simp [hid, heq, hbeq]
        · have : ¬ awemeId ∈ (t.aweme_id :: seen) := by
            simp only [List.mem_cons, not_or]
            exact ⟨fun hx => heq hx.symm, hid⟩
          simp [hid, this, hbeq, List.any_cons]

theorem mem_reconcile_cons {trends : List Trend} {fs : List FilterEntry} {x : Trend}
    (f : FilterEntry) (hx : x ∈ reconcile trends fs) : x ∈ reconcile trends (f :: fs) := by
  rcases hfind : trends.find? (fun t => t.aweme_id == f.aweme_id) with _ | t
  · simpa only [reconcile, hfind] using hx
  · simp only [reconcile, hfind]
    by_cases hs : 70 ≤ f.relevance_score
    · rw [if_pos hs]; exact List.mem_cons_of_mem _ hx
    · rw [if_neg hs]; exact hx

theorem reconcile_accept {trends : List Trend} {entries : List FilterEntry}
    {f : FilterEntry} {t : Trend} (hf : f ∈ entries) (hs : 70 ≤ f.relevance_score)
    (hfind : trends.find? (fun t => t.aweme_id == f.aweme_id) = some t) :
    mergeEnrichment t f ∈ reconcile trends entries := by
  induction entries with
  | nil => cases hf
  | cons g gs ih =>
    rcases List.mem_cons.mp hf with rfl | hf'
    · simp only [reconcile, hfind, if_pos hs]
      exact List.mem_cons_self _ _
    · exact mem_reconcile_cons g (ih hf')

theorem reconcile_shape {trends : List Trend} {entries : List FilterEntry} {x : Trend}
    (hx : x ∈ reconcile trends entries) :
    ∃ f ∈ entries, ∃ t,
      trends.find? (fun t => t.aweme_id == f.aweme_id) = some t ∧
      70 ≤ f.relevance_score ∧ x = mergeEnrichment t f := by
  induction entries with
  | nil => simp [reconcile] at hx
  | cons g gs ih =>
    rcases hfind : trends.find? (fun t => t.aweme_id == g.aweme_id) with _ | t
    · simp only [reconcile, hfind] at hx
      obtain ⟨f, hf, rest⟩ := ih hx
      exact ⟨f, List.mem_cons_of_mem _ hf, rest⟩
    · simp only [reconcile, hfind] at hx
      by_cases hs : 70 ≤ g.relevance_score
      · rw [if_pos hs] at hx
        rcases List.mem_cons.mp hx with rfl | hx'
        · exact ⟨g, List.mem_cons_self _ _, t, hfind, hs, rfl⟩
        · obtain ⟨f, hf, rest⟩ := ih hx'
          exact ⟨f, List.mem_cons_of_mem _ hf, rest⟩
      · rw [if_neg hs] at hx
        obtain ⟨f, hf, rest⟩ := ih hx
        exact ⟨f, List.mem_cons_of_mem _ hf, rest⟩

/-! ### Claim theorems -/

/-- Claim C1: an LLM response entry contributes to the accepted set exactly
when its identifier matches some candidate and its `relevance_score` is at
least 70; consequently every accepted record carries a merged score of at
least 70 (so a 69-score entry never appears), and a 70-score entry with a
matching identifier always contributes. -/
theorem c1_threshold_acceptance (trends : List Trend) (entries : List FilterEntry) :
    (∀ f ∈ entries, (∃ t ∈ trends, t.aweme_id = f.aweme_id) → 70 ≤ f.relevance_score →
      ∃ t ∈ trends, t.aweme_id = f.aweme_id ∧
        mergeEnrichment t f ∈ reconcile trends entries) ∧
    (∀ x ∈ reconcile trends entries, ∃ f ∈ entries, ∃ t ∈ trends,
      t.aweme_id = f.aweme_id ∧ 70 ≤ f.relevance_score ∧ x = mergeEnrichment t f) ∧
    (∀ x ∈ reconcile trends entries, ∀ r, x.relevance_score = some r → 70 ≤ r) := by
  have shape : ∀ x ∈ reconcile trends entries, ∃ f ∈ entries, ∃ t ∈ trends,
      t.aweme_id = f.aweme_id ∧ 70 ≤ f.relevance_score ∧ x = mergeEnrichment t f := by
    intro x hx
    obtain ⟨f, hf, t, hfind, hs, hx⟩ := reconcile_shape hx
    refine ⟨f, hf, t, List.mem_of_find?_eq_some hfind, ?_, hs, hx⟩
    have := List.find?_some hfind
    simpa using this
  refine ⟨?_, shape, ?_⟩
  · intro f hf hex hs
    have hsome : (trends.find? (fun t => t.aweme_id == f.aweme_id)).isSome := by
      rw [List.find?_isSome]
      obtain ⟨t, ht, hid⟩ := hex
      exact ⟨t, ht, by simp [hid]⟩
    obtain ⟨t, hfind⟩ := Option.isSome_iff_exists.mp hsome
    refine ⟨t, List.mem_of_find?_eq_some hfind, ?_, reconcile_accept hf hs hfind⟩
    have := List.find?_some hfind
    simpa using this
  · intro x hx r hr
    obtain ⟨f, _, t, _, _, hs, hx⟩ := shape x hx
    subst hx
    simp only [mergeEnrichment] at hr
    cases hr
    exact hs

/-- Witness for C1: with one candidate `"123"` and LLM entries scoring 69 and
70 on it, the 70-entry's merged record is accepted. -/
theorem c1_threshold_acceptance_witness :
    mergeEnrichment
        ⟨"123", "d", ⟨"u", "n", 0⟩, ⟨10, 1, 1, 1⟩, 30, none, none, none, none, none, none, none⟩
        ⟨"123", 70, "ok", "tech", true, "growing"⟩ ∈
      reconcile
        [⟨"123", "d", ⟨"u", "n", 0⟩, ⟨10, 1, 1, 1⟩, 30, none, none, none, none, none, none, none⟩]
        [⟨"123", 69, "low", "tech", false, "stable"⟩,
         ⟨"123", 70, "ok", "tech", true, "growing"⟩] := by
  have h := (c1_threshold_acceptance
      [⟨"123", "d", ⟨"u", "n", 0⟩, ⟨10, 1, 1, 1⟩, 30, none, none, none, none, none, none, none⟩]
      [⟨"123", 69, "low", "tech", false, "stable"⟩,
       ⟨"123", 70, "ok", "tech", true, "growing"⟩]).1
    ⟨"123", 70, "ok", "tech", true, "growing"⟩ (by simp)
    ⟨_, List.mem_singleton_self _, rfl⟩ (by norm_num)
  obtain ⟨t, ht, -, hmem⟩ := h
  rw [List.mem_singleton] at ht
  subst ht
  exact hmem

/-- Claim C2: reconciliation works against the whole original candidate list
(a matching candidate beyond the first 20 is still accepted); an entry whose
identifier matches no candidate is silently dropped; candidates the LLM never
mentions are absent from the accepted set; and each accepted record is the
original candidate with exactly the five enrichment fields merged onto it. -/
theorem c2_reconciliation (trends : List Trend) (entries : List FilterEntry) :
    (∀ f fs, (∀ t ∈ trends, t.aweme_id ≠ f.aweme_id) →
      reconcile trends (f :: fs) = reconcile trends fs) ∧
    (∀ c ∈ trends, (∀ f ∈ entries, f.aweme_id ≠ c.aweme_id) →
      ∀ x ∈ reconcile trends entries, x.aweme_id ≠ c.aweme_id) ∧
    (∀ x ∈ reconcile trends entries, ∃ t ∈ trends, ∃ f ∈ entries,
      x.aweme_id = t.aweme_id ∧ x.desc = t.desc ∧ x.author = t.author ∧
      x.statistics = t.statistics ∧ x.engagement_rate = t.engagement_rate ∧
      x.sentiment = t.sentiment ∧ x.audience = t.audience ∧
      x.relevance_score = some f.relevance_score ∧
      x.relevance_reason = some f.relevance_reason ∧
      x.trend_category = some f.category ∧
      x.audience_match = some f.audience_match ∧
      x.trend_potential = some f.trend_potential) ∧
    (∀ f ∈ entries, 70 ≤ f.relevance_score →
      (∃ t ∈ trends.drop 20, t.aweme_id = f.aweme_id) →
      ∃ x ∈ reconcile trends entries, x.aweme_id = f.aweme_id) := by
  refine ⟨?_, ?_, ?_, ?_⟩
  · intro f fs hno
    have hfind : trends.find? (fun t => t.aweme_id == f.aweme_id) = none := by
      rw [List.find?_eq_none]
      intro t ht
      simpa using hno t ht
    simp only [reconcile, hfind]
  · intro c _ hno x hx
    obtain ⟨f, hf, t, hfind, _, rfl⟩ := reconcile_shape hx
    have hid : t.aweme_id = f.aweme_id := by simpa using List.find?_some hfind
    intro hxc
    exact hno f hf (hid.symm.trans hxc)
  · intro x hx
    obtain ⟨f, hf, t, hfind, _, rfl⟩ := reconcile_shape hx
    exact ⟨t, List.mem_of_find?_eq_some hfind, f, hf,
      rfl, rfl, rfl, rfl, rfl, rfl, rfl, rfl, rfl, rfl, rfl, rfl⟩
  · intro f hf hs hex
    obtain ⟨t, ht, hid⟩ := hex
    have ht' : t ∈ trends := List.mem_of_mem_drop ht
    have hsome : (trends.find? (fun t => t.aweme_id == f.aweme_id)).isSome := by
      rw [List.find?_isSome]
      exact ⟨t, ht', by simp [hid]⟩
    obtain ⟨t', hfind⟩ := Option.isSome_iff_exists.mp hsome
    refine ⟨mergeEnrichment t' f, reconcile_accept hf hs hfind, ?_⟩
    simpa using List.find?_some hfind

/-- Witness for C2: an entry referencing the unknown identifier `"999"` is
dropped without affecting the reconciliation of the remaining entries. -/
theorem c2_reconciliation_witness :
    reconcile
        [⟨"123", "d", ⟨"u", "n", 0⟩, ⟨10, 1, 1, 1⟩, 30, none, none, none, none, none, none, none⟩]
        [⟨"999", 95, "x", "tech", true, "growing"⟩,
         ⟨"123", 80, "ok", "tech", true, "growing"⟩] =
      reconcile
        [⟨"123", "d", ⟨"u", "n", 0⟩, ⟨10, 1, 1, 1⟩, 30, none, none, none, none, none, none, none⟩]
        [⟨"123", 80, "ok", "tech", true, "growing"⟩] :=
  (c2_reconciliation
      [⟨"123", "d", ⟨"u", "n", 0⟩, ⟨10, 1, 1, 1⟩, 30, none, none, none, none, none, none, none⟩]
      [⟨"999", 95, "x", "tech", true, "growing"⟩,
       ⟨"123", 80, "ok", "tech", true, "growing"⟩]).1
    ⟨"999", 95, "x", "tech", true, "growing"⟩
    [⟨"123", 80, "ok", "tech", true, "growing"⟩]
    (by decide)

theorem rankLE_total (x y : Trend) : rankLE x y || rankLE y x := by
  simp only [rankLE, Bool.or_eq_true, Bool.and_eq_true, decide_eq_true_eq]
  rcases lt_trichotomy (y.relevance_score.getD 0) (x.relevance_score.getD 0) with h | h | h
  · exact Or.inl (Or.inl h)
  · rcases le_total y.engagement_rate x.engagement_rate with he | he
    · exact Or.inl (Or.inr ⟨h, he⟩)
    · exact Or.inr (Or.inr ⟨h.symm, he⟩)
  · exact Or.inr (Or.inl h)

theorem rankLE_trans (x y z : Trend) (h₁ : rankLE x y) (h₂ : rankLE y z) : rankLE x z := by
  simp only [rankLE, Bool.or_eq_true, Bool.and_eq_true, decide_eq_true_eq] at h₁ h₂ ⊢
  rcases h₁ with h₁ | ⟨h₁e, h₁g⟩ <;> rcases h₂ with h₂ | ⟨h₂e, h₂g⟩
  · exact Or.inl (h₂.trans h₁)
  · exact Or.inl (h₂e ▸ h₁)
  · exact Or.inl (h₁e ▸ h₂)
  · exact Or.inr ⟨h₂e.trans h₁e, h₂g.trans h₁g⟩

/-- Claim C3: the accepted set is stably sorted by `(relevance_score,
engagement ratio)`, both descending — the sorted list is a permutation of the
accepted set, pairwise non-increasing in the lexicographic key, and two
accepted records with equal keys keep their input order — and the function
returns its first `max_results` elements. -/
theorem c3_sort_and_truncate (trends : List Trend) (entries : List FilterEntry) (m : Nat) :
    (rankedAccepted trends entries).Perm (reconcile trends entries) ∧
    (rankedAccepted trends entries).Pairwise (fun x y => rankLE x y) ∧
    (∀ x y : Trend, [x, y].Sublist (reconcile trends entries) →
      x.relevance_score.getD 0 = y.relevance_score.getD 0 →
      x.engagement_rate = y.engagement_rate →
      [x, y].Sublist (rankedAccepted trends entries)) ∧
    filter_and_rank_trends trends (some entries) m = (rankedAccepted trends entries).take m ∧
    (filter_and_rank_trends trends (some entries) m).length =
      min m (reconcile trends entries).length := by
  refine ⟨List.mergeSort_perm _ _,
    List.sorted_mergeSort (fun a b c => rankLE_trans a b c) rankLE_total _, ?_, rfl, ?_⟩
  · intro x y hsub he hg
    have hxy : rankLE x y := by
      simp [rankLE, he, hg]
    exact List.sublist_mergeSort (fun a b c => rankLE_trans a b c) rankLE_total
      (List.pairwise_pair.mpr hxy) hsub
  · simp [filter_and_rank_trends, rankedAccepted, List.length_take]

/-- Witness for C3: two accepted records with equal sort keys keep their
input order in the sorted accepted set. -/
theorem c3_sort_and_truncate_witness :
    [mergeEnrichment
        ⟨"1", "a", ⟨"u", "n", 0⟩, ⟨0, 0, 0, 0⟩, 5, none, none, none, none, none, none, none⟩
        ⟨"1", 80, "r", "tech", true, "growing"⟩,
     mergeEnrichment
        ⟨"2", "b", ⟨"v", "m", 0⟩, ⟨0, 0, 0, 0⟩, 5, none, none, none, none, none, none, none⟩
        ⟨"2", 80, "r", "tech", true, "growing"⟩].Sublist
      (rankedAccepted
        [⟨"1", "a", ⟨"u", "n", 0⟩, ⟨0, 0, 0, 0⟩, 5, none, none, none, none, none, none, none⟩,
         ⟨"2", "b", ⟨"v", "m", 0⟩, ⟨0, 0, 0, 0⟩, 5, none, none, none, none, none, none, none⟩]
        [⟨"1", 80, "r", "tech", true, "growing"⟩,
         ⟨"2", 80, "r", "tech", true, "growing"⟩]) := by
  have h := (c3_sort_and_truncate
      [⟨"1", "a", ⟨"u", "n", 0⟩, ⟨0, 0, 0, 0⟩, 5, none, none, none, none, none, none, none⟩,
       ⟨"2", "b", ⟨"v", "m", 0⟩, ⟨0, 0, 0, 0⟩, 5, none, none, none, none, none, none, none⟩]
      [⟨"1", 80, "r", "tech", true, "growing"⟩,
       ⟨"2", 80, "r", "tech", true, "growing"⟩] 2).2.2.1
  exact h _ _ (by decide) (by decide) (by decide)

/-- Claim C4 (failing input): when the LLM call or JSON parse raises, the
`except` branch of `filter_and_rank_trends` returns the first `max_results`
candidates in input order, with no enrichment fields populated, but does NOT
re-sort them by engagement ratio: on candidates with engagement ratios 1 and 2
in that order it returns them unchanged, an ascending — not descending —
sequence.  (The enclosing comment in the source promises the top trends by
engagement; the caller `refresh_trends` performs that sort in its own
fallback.) -/
theorem c4_fallback_not_engagement_sorted :
    filter_and_rank_trends
        [⟨"1", "a", ⟨"u", "n", 0⟩, ⟨100, 1, 0, 0⟩, 1, none, none, none, none, none, none, none⟩,
         ⟨"2", "b", ⟨"v", "m", 0⟩, ⟨100, 2, 0, 0⟩, 2, none, none, none, none, none, none, none⟩]
        none 2 =
      [⟨"1", "a", ⟨"u", "n", 0⟩, ⟨100, 1, 0, 0⟩, 1, none, none, none, none, none, none, none⟩,
       ⟨"2", "b", ⟨"v", "m", 0⟩, ⟨100, 2, 0, 0⟩, 2, none, none, none, none, none, none, none⟩] ∧
    ¬ ((2 : Rat) ≤ (1 : Rat)) :=
  ⟨rfl, by norm_num⟩

/-- Claim C5: the derived engagement ratio is 0 when the view count is zero
and `(likes + comments + shares) / views * 100` otherwise; the record with
views 1000, likes 50, comments 30 and shares 20 gets ratio 10; and the
computation is deterministic (two evaluations on the same record agree). -/
theorem c5_engagement_ratio (s : Statistics) :
    (s.play_count = 0 → calculate_engagement_rate s = 0) ∧
    (s.play_count ≠ 0 →
      calculate_engagement_rate s =
        ((s.digg_count : Rat) + (s.comment_count : Rat) + (s.share_count : Rat)) /
          (s.play_count : Rat) * 100) ∧
    calculate_engagement_rate ⟨1000, 50, 30, 20⟩ = 10 ∧
    calculate_engagement_rate s = calculate_engagement_rate s := by
  refine ⟨fun h => ?_, fun h => ?_, ?_, rfl⟩
  · simp [calculate_engagement_rate, h]
  · simp [calculate_engagement_rate, h, Nat.pos_of_ne_zero h]
  · norm_num [calculate_engagement_rate]

/-- Witness for C5 at concrete statistics records. -/
theorem c5_engagement_ratio_witness :
    calculate_engagement_rate ⟨0, 5, 6, 7⟩ = 0 ∧
    calculate_engagement_rate ⟨1000, 50, 30, 20⟩ =
      ((50 : Rat) + (30 : Rat) + (20 : Rat)) / (1000 : Rat) * 100 :=
  ⟨(c5_engagement_ratio ⟨0, 5, 6, 7⟩).1 rfl,
   by simpa using (c5_engagement_ratio ⟨1000, 50, 30, 20⟩).2.1 (by decide)⟩

theorem find?_decomp {α : Type} (p : α → Bool) :
    ∀ (l : List α) (a : α), l.find? p = some a →
      ∃ l₁ l₂, l = l₁ ++ a :: l₂ ∧ (∀ x ∈ l₁, ¬ p x) ∧ p a := by
  intro l
  induction l with
  | nil => intro a h; simp at h
  | cons x xs ih =>
    intro a h
    by_cases hp : p x
    · rw [List.find?_cons_of_pos _ hp] at h
      cases h
      exact ⟨[], xs, rfl, by simp, hp⟩
    · rw [List.find?_cons_of_neg _ hp] at h
      obtain ⟨l₁, l₂, rfl, hl₁, hpa⟩ := ih a h
      refine ⟨x :: l₁, l₂, rfl, ?_, hpa⟩
      intro z hz
      rcases List.mem_cons.mp hz with rfl | hz'
      · simp [hp]
      · exact hl₁ z hz'

theorem map_eq_self_of {α : Type} {f : α → α} :
    ∀ {l : List α}, (∀ a ∈ l, f a = a) → l.map f = l := by
  intro l
  induction l with
  | nil => intro _; rfl
  | cons x xs ih =>
    intro h
    simp only [List.map_cons]
    rw [h x (List.mem_cons_self _ _), ih (fun a ha => h a (List.mem_cons_of_mem _ ha))]

theorem map_congr_on {α β : Type} {f g : α → β} :
    ∀ {l : List α}, (∀ a ∈ l, f a = g a) → l.map f = l.map g := by
  intro l
  induction l with
  | nil => intro _; rfl
  | cons x xs ih =>
    intro h
    simp only [List.map_cons]
    rw [h x (List.mem_cons_self _ _), ih (fun a ha => h a (List.mem_cons_of_mem _ ha))]

theorem saveTrendStep_spec (u : String) (db : TrendsTable) (t : Trend)
    (hwf : WellFormedTable db) (hone : rowCount db t.aweme_id ≤ 1) :
    rowCount (saveTrendStep u db t) t.aweme_id = 1 ∧
    WellFormedTable (saveTrendStep u db t) := by
  rcases hfind : db.rows.find? (fun r => r.2.Aweme_ID == t.aweme_id) with _ | ex
  · have hzero : db.rows.countP (fun r => r.2.Aweme_ID == t.aweme_id) = 0 := by
      rw [List.countP_eq_zero]
      exact fun r hr => List.find?_eq_none.mp hfind r hr
    refine ⟨?_, ?_, ?_⟩
    · show (saveTrendStep u db t).rows.countP _ = 1
      simp only [saveTrendStep, hfind]
      rw [List.countP_append, hzero]
      simp [List.countP_cons, mkTrendRecord]
    · simp only [saveTrendStep, hfind, List.map_append]
      rw [List.nodup_append]
      refine ⟨hwf.1, List.nodup_singleton _, ?_⟩
      intro a ha
      obtain ⟨r, hr, rfl⟩ := List.mem_map.mp ha
      have := hwf.2 r hr
      simp only [List.map_cons, List.map_nil, List.mem_singleton]
      omega
    · intro r hr
      simp only [saveTrendStep, hfind] at hr ⊢
      rcases List.mem_append.mp hr with h | h
      · exact Nat.lt_succ_of_lt (hwf.2 r h)
      · rw [List.mem_singleton] at h
        subst h
        exact Nat.lt_succ_self _
  · obtain ⟨l₁, l₂, hsplit, hl₁, hpex⟩ := find?_decomp _ _ _ hfind
    have hfst : ∀ r : Nat × TrendRecord,
        ((if r.1 = ex.1 then (r.1, mkTrendRecord u t) else r) : Nat × TrendRecord).1 = r.1 := by
      intro r
      by_cases h : r.1 = ex.1 <;> simp [h]
    have hmapfst : (saveTrendStep u db t).rows.map Prod.fst = db.rows.map Prod.fst := by
      simp only [saveTrendStep, hfind]
      rw [List.map_map]
      exact map_congr_on (fun r _ => hfst r)
    have hnodup := hwf.1
    have hids : ex.1 ∉ l₁.map Prod.fst ∧ ex.1 ∉ l₂.map Prod.fst := by
      rw [hsplit] at hnodup
      simp only [List.map_append, List.map_cons, List.nodup_append, List.nodup_cons] at hnodup
      exact ⟨fun h => hnodup.2.2 h (List.mem_cons_self _ _), hnodup.2.1.1⟩
    have hg₁ : l₁.map (fun r => if r.1 = ex.1 then (r.1, mkTrendRecord u t) else r) = l₁ :=
      map_eq_self_of (fun r hr => by
        have hne : r.1 ≠ ex.1 := fun h => hids.1 (h ▸ List.mem_map_of_mem _ hr)
        simp [hne])
    have hg₂ : l₂.map (fun r => if r.1 = ex.1 then (r.1, mkTrendRecord u t) else r) = l₂ :=
      map_eq_self_of (fun r hr => by
        have hne : r.1 ≠ ex.1 := fun h => hids.2 (h ▸ List.mem_map_of_mem _ hr)
        simp [hne])
    have hrows : (saveTrendStep u db t).rows = l₁ ++ (ex.1, mkTrendRecord u t) :: l₂ := by
      simp only [saveTrendStep, hfind]
      rw [hsplit, List.map_append, List.map_cons, hg₁, hg₂]
      simp
    have hl₂zero : l₂.countP (fun r => r.2.Aweme_ID == t.aweme_id) = 0 := by
      have h1 : rowCount db t.aweme_id =
          l₁.countP (fun r => r.2.Aweme_ID == t.aweme_id) +
            (l₂.countP (fun r => r.2.Aweme_ID == t.aweme_id) + 1) := by
        rw [rowCount, hsplit, List.countP_append, List.countP_cons, if_pos hpex]
      have h2 : l₁.countP (fun r => r.2.Aweme_ID == t.aweme_id) = 0 :=
        List.countP_eq_zero.mpr hl₁
      rw [h1, h2] at hone
      omega
    have h0 : l₁.countP (fun r => r.2.Aweme_ID == t.aweme_id) = 0 :=
      List.countP_eq_zero.mpr hl₁
    refine ⟨?_, ?_, ?_⟩
    · show (saveTrendStep u db t).rows.countP _ = 1
      rw [hrows, List.countP_append, List.countP_cons, h0, hl₂zero]
      simp [mkTrendRecord]
    · rw [hmapfst]
      exact hwf.1
    · intro r hr
      simp only [saveTrendStep, hfind] at hr ⊢
      obtain ⟨r₀, hr₀, rfl⟩ := List.mem_map.mp hr
      rw [hfst r₀]
      exact hwf.2 r₀ hr₀

/-- Claim C9: `save_trends` is an idempotent upsert keyed by `Aweme_ID`: on a
well-formed table holding at most one row for an item's identifier, saving
that item twice leaves exactly one row with its identifier — the second run
updates the existing row instead of inserting a duplicate. -/
theorem c9_upsert_idempotent (db : TrendsTable) (t : Trend) (u : String)
    (hwf : WellFormedTable db) (hone : rowCount db t.aweme_id ≤ 1) :
    rowCount (save_trends (save_trends db [t] u) [t] u) t.aweme_id = 1 := by
  have h1 := saveTrendStep_spec u db t hwf hone
  have h2 := saveTrendStep_spec u (saveTrendStep u db t) t h1.2 (le_of_eq h1.1)
  simpa [save_trends] using h2.1

/-- Witness for C9: saving one concrete item twice into the empty table
leaves exactly one row for its identifier. -/
theorem c9_upsert_idempotent_witness :
    rowCount
      (save_trends
        (save_trends ⟨[], 0⟩
          [⟨"123", "d", ⟨"u", "n", 7⟩, ⟨10, 1, 1, 1⟩, 30, none, none, none, none, none, none,
            none⟩] "alice")
        [⟨"123", "d", ⟨"u", "n", 7⟩, ⟨10, 1, 1, 1⟩, 30, none, none, none, none, none, none,
          none⟩] "alice")
      "123" = 1 :=
  c9_upsert_idempotent ⟨[], 0⟩
    ⟨"123", "d", ⟨"u", "n", 7⟩, ⟨10, 1, 1, 1⟩, 30, none, none, none, none, none, none, none⟩
    "alice" ⟨List.nodup_nil, by simp⟩ (by simp [rowCount])

/-- Claim C8: the fallback taste-profile derivation is total and
deterministic; it selects the first niche of the fixed keyword table with a
keyword occurring in the lowercased bio (default `"lifestyle"`); the derived
interest/keyword/hashtag lists are non-empty, the target audience is
`"General audience"`, and the region focus is the profile's region or
`"Global"`. -/
theorem c8_fallback_profile (p : ProfileData) :
    (fallback_profile_analysis p).interests ≠ [] ∧
    (fallback_profile_analysis p).keywords ≠ [] ∧
    (fallback_profile_analysis p).hashtags ≠ [] ∧
    (fallback_profile_analysis p).interests.head? =
      some (fallback_profile_analysis p).niche ∧
    (fallback_profile_analysis p).target_audience = "General audience" ∧
    (fallback_profile_analysis p).region_focus = p.region.getD "Global" ∧
    ((∃ pre kws post,
        nicheKeywords = pre ++ ((fallback_profile_analysis p).niche, kws) :: post ∧
        kws.any (fun kw => occursIn kw.data ((p.bio.getD "").toLower).data) ∧
        ∀ nk ∈ pre,
          ¬ (nk.2.any (fun kw => occursIn kw.data ((p.bio.getD "").toLower).data) = true)) ∨
      ((fallback_profile_analysis p).niche = "lifestyle" ∧
        ∀ nk ∈ nicheKeywords,
          ¬ (nk.2.any (fun kw => occursIn kw.data ((p.bio.getD "").toLower).data) = true))) := by
  refine ⟨by simp [fallback_profile_analysis], by simp [fallback_profile_analysis],
    by simp [fallback_profile_analysis], by simp [fallback_profile_analysis], rfl, rfl, ?_⟩
  rcases hfind : nicheKeywords.find?
      (fun nk => nk.2.any (fun kw => occursIn kw.data ((p.bio.getD "").toLower).data))
    with _ | nk
  · right
    constructor
    · simp [fallback_profile_analysis, detectNiche, hfind]
    · intro nk hnk
      exact List.find?_eq_none.mp hfind nk hnk
  · left
    obtain ⟨pre, post, heq, hpre, hp⟩ := find?_decomp _ _ _ hfind
    have hniche : (fallback_profile_analysis p).niche = nk.1 := by
      simp [fallback_profile_analysis, detectNiche, hfind]
    exact ⟨pre, nk.2, post, by rw [hniche]; exact heq, hp, hpre⟩

/-- Witness for C8 at a concrete profile record. -/
theorem c8_fallback_profile_witness :
    (fallback_profile_analysis ⟨some "All about makeup and skincare", some "US"⟩).target_audience =
      "General audience" ∧
    (fallback_profile_analysis ⟨some "All about makeup and skincare", some "US"⟩).region_focus =
      "US" :=
  ⟨(c8_fallback_profile ⟨some "All about makeup and skincare", some "US"⟩).2.2.2.2.1,
   ((c8_fallback_profile ⟨some "All about makeup and skincare", some "US"⟩).2.2.2.2.2.1).trans rfl⟩

theorem splitOnChar_ne_nil (c : Char) (s : List Char) : splitOnChar c s ≠ [] := by
  cases s with
  | nil => simp [splitOnChar]
  | cons x xs =>
    rcases h : splitOnChar c xs with _ | ⟨hd, tl⟩
    · simp [splitOnChar, h]
    · by_cases hx : x = c <;> simp [splitOnChar, h, hx]

theorem headD_splitOnChar (c : Char) (s : List Char) :
    (splitOnChar c s).headD [] = s.takeWhile (fun a => a ≠ c) := by
  induction s with
  | nil => simp [splitOnChar]
  | cons x xs ih =>
    rcases h : splitOnChar c xs with _ | ⟨hd, tl⟩
    · exact absurd h (splitOnChar_ne_nil c xs)
    · rw [h] at ih
      by_cases hx : x = c
      · simp [splitOnChar, h, hx]
      · simp only [splitOnChar, h, if_neg hx, List.headD_cons, List.takeWhile_cons]
        simp only [List.headD_cons] at ih
        simp [hx, ih]

theorem getLast_eq_getLastD_cons {α : Type} (a : α) (l : List α) (h : a :: l ≠ []) (d : α) :
    (a :: l).getLast h = (a :: l).getLast?.getD d := by
  rw [List.getLast?_eq_getLast (a :: l) h]
  rfl

theorem splitOnChar_append_singleton (c x : Char) (xs : List Char) :
    splitOnChar c (xs ++ [x]) =
      if x = c then splitOnChar c xs ++ [[]]
      else (splitOnChar c xs).dropLast ++ [(splitOnChar c xs).getLastD [] ++ [x]] := by
  induction xs with
  | nil => by_cases hx : x = c <;> simp [splitOnChar, hx]
  | cons y ys ih =>
    rcases h' : splitOnChar c ys with _ | ⟨hd, tl⟩
    · exact absurd h' (splitOnChar_ne_nil c ys)
    · rw [h'] at ih
      by_cases hx : x = c
      · rw [if_pos hx] at ih ⊢
        have : splitOnChar c (y :: ys ++ [x]) = splitOnChar c (y :: (ys ++ [x])) := rfl
        rw [this]
        rcases hsp : splitOnChar c (ys ++ [x]) with _ | ⟨hd₂, tl₂⟩
        · exact absurd hsp (splitOnChar_ne_nil c _)
        · rw [hsp] at ih
          cases ih
          by_cases hy : y = c <;> simp [splitOnChar, hsp, h', hy]
      · rw [if_neg hx] at ih ⊢
        have : splitOnChar c (y :: ys ++ [x]) = splitOnChar c (y :: (ys ++ [x])) := rfl
        rw [this]
        rcases hsp : splitOnChar c (ys ++ [x]) with _ | ⟨hd₂, tl₂⟩
        · exact absurd hsp (splitOnChar_ne_nil c _)
        · rw [hsp] at ih
          cases tl with
          | nil =>
            simp only [List.dropLast_single, List.nil_append, List.getLastD_cons,
              List.getLastD_nil] at ih
            cases ih
            by_cases hy : y = c <;> simp [splitOnChar, hsp, h', hy]
          | cons t₀ ts =>
            simp only [List.dropLast_cons₂, List.cons_append, List.getLastD_cons] at ih
            cases ih
            by_cases hy : y = c <;>
              simp [splitOnChar, hsp, h', hy, List.dropLast_cons₂, List.getLastD_cons] <;>
              (cases ts with
               | nil => simp
               | cons u us => exact getLast_eq_getLastD_cons u us (by simp) [])

theorem getLastD_splitOnChar (c : Char) (s : List Char) :
    (splitOnChar c s).getLastD [] = (s.reverse.takeWhile (fun a => a ≠ c)).reverse := by
  induction s using List.reverseRecOn with
  | nil => simp [splitOnChar]
  | append_singleton xs x ih =>
    rw [splitOnChar_append_singleton]
    have hrev : (xs ++ [x]).reverse = x :: xs.reverse := by simp
    by_cases hx : x = c
    · rw [if_pos hx, List.getLastD_concat, hrev, List.takeWhile_cons,
        if_neg (by simp [hx])]
      simp
    · rw [if_neg hx, List.getLastD_concat, hrev, List.takeWhile_cons,
        if_pos (by simp [hx]), List.reverse_cons]
      exact congrArg (· ++ [x]) ih

theorem takeWhile_and {α : Type} (p q : α → Bool) (l : List α) :
    (l.takeWhile p).takeWhile q = l.takeWhile (fun a => p a && q a) := by
  induction l with
  | nil => rfl
  | cons x xs ih =>
    by_cases hp : p x
    · by_cases hq : q x <;> simp [List.takeWhile_cons, hp, hq, ih]
    · simp [List.takeWhile_cons, hp]

/-- Claim C10: for every URL containing at least one `@`,
`extract_username_from_url` never raises: it returns the substring after the
last `@`, cut at the first `/` or `?`, lowercased — the empty string when
nothing follows the last `@` — without any handle-shape validation. -/
theorem c10_at_extraction (url : String) (h : url.data.contains '@') :
    extract_username_from_url url =
      .ok (String.mk
        (((url.data.reverse.takeWhile (fun a => a ≠ '@')).reverse.takeWhile
            (fun a => a ≠ '/' && a ≠ '?')).map Char.toLower)) := by
  simp only [extract_username_from_url]
  rw [if_pos h]
  rw [beforeFirstSplit, beforeFirstSplit, afterLastSplit,
    headD_splitOnChar, headD_splitOnChar, getLastD_splitOnChar, takeWhile_and]

/-- Witness for C10: a canonical `@handle` URL yields the lowercased handle,
and a URL ending in `@` yields the empty string without an error. -/
theorem c10_at_extraction_witness :
    extract_username_from_url "https://www.tiktok.com/@Alice/video?t=1" = .ok "alice" ∧
    extract_username_from_url "https://x.com/a@" = .ok "" :=
  ⟨(c10_at_extraction "https://www.tiktok.com/@Alice/video?t=1" (by decide)).trans rfl,
   (c10_at_extraction "https://x.com/a@" (by decide)).trans rfl⟩

/-- Claim C7 (failing input): a profile URL in plain path-segment form —
without any `@` — is always rejected with the invalid-URL `ValueError`: the
fallback branch of `extract_username_from_url` searches the path for a
segment starting with `@`, which cannot exist when the URL contains no `@`,
so the branch that the source comments as handling other formats never
succeeds. -/
theorem c7_path_segment_url_rejected :
    extract_username_from_url "https://www.tiktok.com/username" =
      .error "Invalid TikTok URL format: https://www.tiktok.com/username" := by
  rfl

/-- Claim C6: aggregation deduplicates the concatenation of the hashtag batch
and the keyword batch by `aweme_id`: an identifier occurring in both batches
occurs exactly once in the merged output, and the kept items appear in the
order of the concatenated input. -/
theorem c6_dedup_aggregation (h k : List Trend) (awemeId : String)
    (hh : ∃ t ∈ h, t.aweme_id = awemeId) (hk : ∃ t ∈ k, t.aweme_id = awemeId) :
    (aggregate_unique_trends h k).countP (fun t => t.aweme_id == awemeId) = 1 ∧
    (aggregate_unique_trends h k).Sublist (h ++ k) := by
  constructor
  · rw [aggregate_unique_trends, countP_dedupLoop]
    obtain ⟨t, ht, rfl⟩ := hh
    have : (h ++ k).any (fun x => x.aweme_id == t.aweme_id) := by
      simp only [List.any_append, Bool.or_eq_true, List.any_eq_true]
      exact Or.inl ⟨t, ht, by simp⟩
    simp [this]
  · exact dedupLoop_sublist [] (h ++ k)

/-- Witness for C6: a concrete identifier present in both search batches. -/
theorem c6_dedup_aggregation_witness :
    (aggregate_unique_trends
        [⟨"123", "a", ⟨"u", "n", 0⟩, ⟨0, 0, 0, 0⟩, 0, none, none, none, none, none, none, none⟩]
        [⟨"123", "b", ⟨"v", "m", 0⟩, ⟨1, 0, 0, 0⟩, 0, none, none, none, none, none, none, none⟩]).countP
      (fun t => t.aweme_id == "123") = 1 :=
  (c6_dedup_aggregation _ _ "123"
    ⟨_, List.mem_singleton_self _, rfl⟩ ⟨_, List.mem_singleton_self _, rfl⟩).1

end TrendXL
